import Mathlib

/-!
Verification of the Pallanguzhi rules engine and decision engine.

The definitions below are a shallow embedding of the JavaScript sources:
the game-logic class (board representation, move validation, sowing,
captures, bonus turns, game-end detection, simulate-and-restore) and the
AI player (heuristic evaluation, minimax with alpha-beta pruning).
JavaScript in-place mutation is rendered as explicit state passing: each
operation takes a `Game` and returns the updated `Game` together with its
return value.
-/

namespace Pallanguzhi

/-- The two sides: `'player'` (pits 0-6) and `'ai'` (pits 7-13). -/
inductive Player where
  | player
  | ai
deriving DecidableEq, Repr

/-- Possible values of the `winner` field once set: `'player'`, `'ai'`, `'tie'`. -/
inductive Winner where
  | player
  | ai
  | tie
deriving DecidableEq, Repr

/-- One entry of the `captures` array: `{ pit, stones }`. -/
structure Capture where
  pit : Nat
  stones : Nat
deriving DecidableEq, Repr

/-- The `moveDetails` object built by `makeMove`. -/
structure MoveDetails where
  startPit : Nat
  path : List Nat
  captures : List Capture
  bonusTurn : Bool
deriving DecidableEq, Repr

/-- One entry pushed onto `moveHistory` by `makeMove`. -/
structure HistoryEntry where
  player : Player
  move : MoveDetails
  boardState : List Nat
  scorePlayer : Nat
  scoreAi : Nat
deriving DecidableEq, Repr

/-- The mutable fields of a `PallanguzhiGame` instance. -/
structure Game where
  board : List Nat
  playerScore : Nat
  aiScore : Nat
  currentPlayer : Player
  gameOver : Bool
  winner : Option Winner
  lastMove : Option MoveDetails
  capturedStones : Nat
  moveHistory : List HistoryEntry
deriving DecidableEq, Repr

/-- `initializeGame`: 14 pits of 6 stones, pits 3 and 10 set to 12. -/
def initialBoard : List Nat := [6, 6, 6, 12, 6, 6, 6, 6, 6, 6, 12, 6, 6, 6]

/-- The state produced by `initializeGame` / the constructor. -/
def initGame : Game :=
  { board := initialBoard
    playerScore := 0
    aiScore := 0
    currentPlayer := Player.player
    gameOver := false
    winner := none
    lastMove := none
    capturedStones := 0
    moveHistory := [] }

/-- `getNextPit`: counter-clockwise successor (6 wraps to 7, 13 wraps to 0). -/
def getNextPit (currentPit : Nat) : Nat :=
  if currentPit ≤ 6 then
    if currentPit = 6 then 7 else currentPit + 1
  else
    if currentPit = 13 then 0 else currentPit + 1

/-- `isOwnPit`: whether the pit belongs to the given current player. -/
def isOwnPit (cur : Player) (pitIndex : Nat) : Bool :=
  match cur with
  | Player.player => decide (pitIndex ≤ 6)
  | Player.ai => decide (7 ≤ pitIndex ∧ pitIndex ≤ 13)

/-- `isValidMove`: game not over, pit on the mover's side, pit nonempty.
Out-of-range reads of the board behave like JavaScript `undefined > 0`
(false), rendered with `List.getD`. -/
def isValidMove (g : Game) (pitIndex : Nat) : Bool :=
  if g.gameOver then false
  else if g.currentPlayer = Player.player ∧ 6 < pitIndex then false
  else if g.currentPlayer = Player.ai ∧ (pitIndex < 7 ∨ 13 < pitIndex) then false
  else decide (0 < g.board.getD pitIndex 0)

/-- The sowing loop of `makeMove`: drop `stones` stones one by one into
successive pits.  Returns the updated board, the pit the last stone landed
in (`lastPit`), and the list of pits visited (the tail of `path`). -/
def sow (board : List Nat) (currentPit : Nat) : Nat → List Nat × Nat × List Nat
  | 0 => (board, currentPit, [])
  | n + 1 =>
    let next := getNextPit currentPit
    let board' := board.set next (board.getD next 0 + 1)
    let r := sow board' next n
    (r.1, r.2.1, next :: r.2.2)

/-- `getAdjacentPits`: left/right neighbours with 13↔0 wraparound, in the
push order of the source. -/
def getAdjacentPits (pitIndex : Nat) : List Nat :=
  (if 0 < pitIndex then [pitIndex - 1] else []) ++
  (if pitIndex < 13 then [pitIndex + 1] else []) ++
  (if pitIndex = 0 then [13] else []) ++
  (if pitIndex = 13 then [0] else [])

/-- The neighbour loop of `checkCapture`: zero every listed pit holding
stones, accumulating the captured total and the `captures` entries. -/
def captureLoop (board : List Nat) : List Nat → List Nat × Nat × List Capture
  | [] => (board, 0, [])
  | adjPit :: rest =>
    if 0 < board.getD adjPit 0 then
      let captured := board.getD adjPit 0
      let r := captureLoop (board.set adjPit 0) rest
      (r.1, captured + r.2.1, ⟨adjPit, captured⟩ :: r.2.2)
    else
      captureLoop board rest

/-- `checkCapture`: fires iff the last stone landed in an opponent pit that
now holds exactly one stone; zeroes stone-holding neighbours into the
capture total, and takes the landing stone itself only if some neighbour
was captured.  Returns the updated board, total captured, and the
`captures` entries. -/
def checkCapture (cur : Player) (board : List Nat) (lastPit : Nat) :
    List Nat × Nat × List Capture :=
  if isOwnPit cur lastPit = false ∧ board.getD lastPit 0 = 1 then
    let r := captureLoop board (getAdjacentPits lastPit)
    if 0 < r.2.1 then
      (r.1.set lastPit 0, r.2.1 + r.1.getD lastPit 0, r.2.2 ++ [⟨lastPit, 1⟩])
    else
      (r.1, r.2.1, r.2.2)
  else
    (board, 0, [])

/-- The object returned by `makeMove` (`message` of the failure branch
carries no game data and is omitted; absent fields are defaulted). -/
structure MoveResult where
  success : Bool
  moveDetails : Option MoveDetails
  captured : Nat
  bonusTurn : Bool
  gameOver : Bool
  winner : Option Winner
deriving DecidableEq, Repr

/-- The failure result `{ success: false, message: 'Invalid move' }`. -/
def invalidResult : MoveResult :=
  { success := false
    moveDetails := none
    captured := 0
    bonusTurn := false
    gameOver := false
    winner := none }

/-- The other side. -/
def otherPlayer : Player → Player
  | Player.player => Player.ai
  | Player.ai => Player.player

/-- `checkGameEnd`: if either side's seven pits are all empty, the game
ends, each side's remaining board stones are added to its own score, and
the winner is decided from the updated scores.  The board itself is not
modified. -/
def checkGameEnd (g : Game) : Game :=
  let playerSideEmpty := (g.board.take 7).all (fun stones => stones = 0)
  let aiSideEmpty := ((g.board.drop 7).take 7).all (fun stones => stones = 0)
  if playerSideEmpty || aiSideEmpty then
    let remainingPlayerStones := (g.board.take 7).sum
    let remainingAiStones := ((g.board.drop 7).take 7).sum
    let pScore := g.playerScore + remainingPlayerStones
    let aScore := g.aiScore + remainingAiStones
    { g with
      gameOver := true
      playerScore := pScore
      aiScore := aScore
      winner :=
        if aScore < pScore then some Winner.player
        else if pScore < aScore then some Winner.ai
        else some Winner.tie }
  else g

/-- `makeMove`: validate, empty the chosen pit, sow, check captures, apply
the bonus-turn rule, push the history entry, check game end, and return
the move result.  The state threading mirrors the source's mutation
order. -/
def makeMove (g : Game) (pitIndex : Nat) : Game × MoveResult :=
  if isValidMove g pitIndex = false then
    (g, invalidResult)
  else
    let stones := g.board.getD pitIndex 0
    let b0 := g.board.set pitIndex 0
    let s := sow b0 pitIndex stones
    let b1 := s.1
    let lastPit := s.2.1
    let c := checkCapture g.currentPlayer b1 lastPit
    let b2 := c.1
    let captured := c.2.1
    let playerScore' :=
      if g.currentPlayer = Player.player then g.playerScore + captured else g.playerScore
    let aiScore' :=
      if g.currentPlayer = Player.ai then g.aiScore + captured else g.aiScore
    let bonus :=
      isOwnPit g.currentPlayer lastPit = true ∧
        b2.getD lastPit 0 % 2 = 0 ∧ 0 < b2.getD lastPit 0
    let currentPlayer' :=
      if bonus then g.currentPlayer else otherPlayer g.currentPlayer
    let moveDetails : MoveDetails :=
      { startPit := pitIndex
        path := pitIndex :: s.2.2
        captures := c.2.2
        bonusTurn := decide bonus }
    let histEntry : HistoryEntry :=
      { player := if currentPlayer' = Player.player then Player.ai else Player.player
        move := moveDetails
        boardState := b2
        scorePlayer := playerScore'
        scoreAi := aiScore' }
    let g1 : Game :=
      { g with
        board := b2
        playerScore := playerScore'
        aiScore := aiScore'
        currentPlayer := currentPlayer'
        moveHistory := g.moveHistory ++ [histEntry] }
    let g2 := checkGameEnd g1
    (g2,
      { success := true
        moveDetails := some moveDetails
        captured := captured
        bonusTurn := decide bonus
        gameOver := g2.gameOver
        winner := g2.winner })

/-- `getValidMoves`: the current side's pit indices, in ascending order,
holding at least one stone. -/
def getValidMoves (g : Game) : List Nat :=
  let start := if g.currentPlayer = Player.player then 0 else 7
  ((List.range 7).map (fun i => i + start)).filter
    (fun i => decide (0 < g.board.getD i 0))

/-- The snapshot object built and returned by `simulateMove`. -/
structure SimulatedState where
  board : List Nat
  playerScore : Nat
  aiScore : Nat
  currentPlayer : Player
  gameOver : Bool
  winner : Option Winner
  moveResult : MoveResult
deriving DecidableEq, Repr

/-- `simulateMove`: run `makeMove` on the live object, snapshot the
result, then restore exactly the six saved fields (board, both scores,
current player, game-over flag, winner).  Returns the snapshot and the
restored game object. -/
def simulateMove (g : Game) (pitIndex : Nat) : SimulatedState × Game :=
  let r := makeMove g pitIndex
  let g' := r.1
  let sim : SimulatedState :=
    { board := g'.board
      playerScore := g'.playerScore
      aiScore := g'.aiScore
      currentPlayer := g'.currentPlayer
      gameOver := g'.gameOver
      winner := g'.winner
      moveResult := r.2 }
  let restored : Game :=
    { g' with
      board := g.board
      playerScore := g.playerScore
      aiScore := g.aiScore
      currentPlayer := g.currentPlayer
      gameOver := g.gameOver
      winner := g.winner }
  (sim, restored)

/-! ## Decision engine (`aiPlayer.js`) -/

/-- JavaScript numbers extended with `-Infinity` (`⊥`) and `Infinity` (`⊤`):
all scores produced by the evaluator are integers, so the search values
live in the integers with both infinities adjoined. -/
abbrev EInt := WithBot (WithTop ℤ)

/-- Total stones on the player side (`board.slice(0, 7)`). -/
def playerStones (g : Game) : Nat := (g.board.take 7).sum

/-- Total stones on the AI side (`board.slice(7, 14)`). -/
def aiStones (g : Game) : Nat := ((g.board.drop 7).take 7).sum

/-- `getValidMoves` after temporarily overwriting `currentPlayer`, as the
mobility term of `evaluatePosition` does. -/
def movesFor (g : Game) (pl : Player) : List Nat :=
  getValidMoves { g with currentPlayer := pl }

/-- `evaluateStrategicPositions`: middle pits at weight 2, corner pits at
weight 1, −3 per empty AI pit, +3 per empty player pit. -/
def evaluateStrategicPositions (g : Game) : ℤ :=
  let b : Nat → ℤ := fun i => (g.board.getD i 0 : ℤ)
  let aiEmpty := ((List.range 7).filter (fun i => g.board.getD (i + 7) 0 = 0)).length
  let pEmpty := ((List.range 7).filter (fun i => g.board.getD i 0 = 0)).length
  b 10 * 2 - b 3 * 2 + b 7 + b 13 - b 0 - b 6 - 3 * (aiEmpty : ℤ) + 3 * (pEmpty : ℤ)

/-- `evaluateCaptureOpportunities`: for each valid move of the current
player of the evaluated state, simulate it and add 15 × the stones it
captures. -/
def evaluateCaptureOpportunities (g : Game) : ℤ :=
  (getValidMoves g).foldl
    (fun s m =>
      let sim := (simulateMove g m).1
      if 0 < sim.moveResult.captured then s + (sim.moveResult.captured : ℤ) * 15 else s)
    0

/-- `evaluatePosition`: terminal states are ±1000/0; otherwise the sum of
the score-difference, stone-distribution, mobility, strategic and
capture-opportunity terms. -/
def evaluatePosition (g : Game) : ℤ :=
  if g.gameOver then
    if g.winner = some Winner.ai then 1000
    else if g.winner = some Winner.player then -1000
    else 0
  else
    ((g.aiScore : ℤ) - (g.playerScore : ℤ)) * 10
      + ((aiStones g : ℤ) - (playerStones g : ℤ)) * 2
      + (((movesFor g Player.ai).length : ℤ) - ((movesFor g Player.player).length : ℤ)) * 5
      + evaluateStrategicPositions g
      + evaluateCaptureOpportunities g

/-- The temporary game object `minimax` recurses on: `Object.assign(new
PallanguzhiGame(), simulatedState)` — the simulated six fields over a
freshly constructed instance (empty history). -/
def childGame (g : Game) (m : Nat) : Game :=
  let sim := (simulateMove g m).1
  { board := sim.board
    playerScore := sim.playerScore
    aiScore := sim.aiScore
    currentPlayer := sim.currentPlayer
    gameOver := sim.gameOver
    winner := sim.winner
    lastMove := none
    capturedStones := 0
    moveHistory := [] }

/-- The static evaluation as a search value. -/
def evalE (g : Game) : EInt := ((evaluatePosition g : WithTop ℤ) : EInt)

/-- `Infinity` as a search value. -/
def topE : EInt := ((⊤ : WithTop ℤ) : EInt)

/-- The maximizing loop of `minimax`: fold over the valid moves, keeping
the running best score (strict improvement) and move, raising `alpha`,
and breaking as soon as `beta ≤ alpha`.  The recursive child evaluation
is abstracted as `f`. -/
def abMaxLoop (f : Game → EInt → EInt → EInt) (g : Game) :
    List Nat → EInt → Option Nat → EInt → EInt → EInt × Option Nat
  | [], best, bm, _, _ => (best, bm)
  | m :: rest, best, bm, a, b =>
    let r := f (childGame g m) a b
    let best' := if best < r then r else best
    let bm' := if best < r then some m else bm
    let a' := max a r
    if b ≤ a' then (best', bm') else abMaxLoop f g rest best' bm' a' b

/-- The minimizing loop of `minimax`, lowering `beta` symmetrically. -/
def abMinLoop (f : Game → EInt → EInt → EInt) (g : Game) :
    List Nat → EInt → Option Nat → EInt → EInt → EInt × Option Nat
  | [], best, bm, _, _ => (best, bm)
  | m :: rest, best, bm, a, b =>
    let r := f (childGame g m) a b
    let best' := if r < best then r else best
    let bm' := if r < best then some m else bm
    let b' := min b r
    if b' ≤ a then (best', bm') else abMinLoop f g rest best' bm' a b'

/-- `minimax(game, depth, isMaximizing, alpha, beta)`: at depth 0 or a
finished game return the static evaluation; otherwise run the maximizing
or minimizing loop over the valid moves, recursing at `depth − 1` with
the unconditionally flipped role. -/
def minimax : Nat → Game → Bool → EInt → EInt → EInt × Option Nat
  | 0, g, _, _, _ => (evalE g, none)
  | d + 1, g, isMax, a, b =>
    if g.gameOver then (evalE g, none)
    else if isMax then
      abMaxLoop (fun c x y => (minimax d c false x y).1) g (getValidMoves g) ⊥ none a b
    else
      abMinLoop (fun c x y => (minimax d c true x y).1) g (getValidMoves g) topE none a b

/-- Maximizing loop without pruning: same strict-improvement fold over
the full move list. -/
def fullMaxLoop (f : Game → EInt) (g : Game) :
    List Nat → EInt → Option Nat → EInt × Option Nat
  | [], best, bm => (best, bm)
  | m :: rest, best, bm =>
    let r := f (childGame g m)
    fullMaxLoop f g rest (if best < r then r else best) (if best < r then some m else bm)

/-- Minimizing loop without pruning. -/
def fullMinLoop (f : Game → EInt) (g : Game) :
    List Nat → EInt → Option Nat → EInt × Option Nat
  | [], best, bm => (best, bm)
  | m :: rest, best, bm =>
    let r := f (childGame g m)
    fullMinLoop f g rest (if r < best then r else best) (if r < best then some m else bm)

/-- Exhaustive minimax without alpha-beta pruning, per the spec's
pruning-equivalence property: identical to `minimax` except that no
sibling is ever skipped.  Ties resolve to the first best-scoring move in
ascending pit order, as in `minimax`. -/
def minimaxFull : Nat → Game → Bool → EInt × Option Nat
  | 0, g, _ => (evalE g, none)
  | d + 1, g, isMax =>
    if g.gameOver then (evalE g, none)
    else if isMax then
      fullMaxLoop (fun c => (minimaxFull d c false).1) g (getValidMoves g) ⊥ none
    else
      fullMinLoop (fun c => (minimaxFull d c true).1) g (getValidMoves g) topE none

/-- Modelled from the spec: minimax in which the maximizing/minimizing
role at every node is derived from the node's own `turn` field (AI's turn
maximizes), instead of flipping the role unconditionally at each ply, so
a bonus turn keeps the same role at the next ply. -/
def minimaxTurn : Nat → Game → EInt × Option Nat
  | 0, g => (evalE g, none)
  | d + 1, g =>
    if g.gameOver then (evalE g, none)
    else if g.currentPlayer = Player.ai then
      fullMaxLoop (fun c => (minimaxTurn d c).1) g (getValidMoves g) ⊥ none
    else
      fullMinLoop (fun c => (minimaxTurn d c).1) g (getValidMoves g) topE none

/-- Modelled from the spec: the capture-opportunity term computed for the
AI (perspective) side's legal moves regardless of whose turn it is in the
evaluated state. -/
def evaluateCaptureOpportunitiesSpec (g : Game) : ℤ :=
  ((movesFor g Player.ai).map
    (fun m => 15 * (((makeMove { g with currentPlayer := Player.ai } m).2.captured : ℤ)))).sum

/-- Modelled from the spec: `evaluatePosition` with the
capture-opportunity term taken over the AI side's moves. -/
def evaluatePositionSpec (g : Game) : ℤ :=
  if g.gameOver then
    if g.winner = some Winner.ai then 1000
    else if g.winner = some Winner.player then -1000
    else 0
  else
    ((g.aiScore : ℤ) - (g.playerScore : ℤ)) * 10
      + ((aiStones g : ℤ) - (playerStones g : ℤ)) * 2
      + (((movesFor g Player.ai).length : ℤ) - ((movesFor g Player.player).length : ℤ)) * 5
      + evaluateStrategicPositions g
      + evaluateCaptureOpportunitiesSpec g

/-! ## Derived notions used to state the claims -/

/-- States reachable from the initial state by `makeMove` calls. -/
inductive Reachable : Game → Prop where
  | init : Reachable initGame
  | step (g : Game) (p : Nat) : Reachable g → Reachable (makeMove g p).1

/-- The sowing stage of `makeMove g p`: empty pit `p`, distribute its
stones. -/
def sowOf (g : Game) (p : Nat) : List Nat × Nat × List Nat :=
  sow (g.board.set p 0) p (g.board.getD p 0)

/-- The board right after sowing, before the capture check. -/
def boardAfterSow (g : Game) (p : Nat) : List Nat := (sowOf g p).1

/-- The pit the last stone of move `p` lands in. -/
def lastPitOf (g : Game) (p : Nat) : Nat := (sowOf g p).2.1

/-- The circular neighbours of the landing pit. -/
def neighborsOf (g : Game) (p : Nat) : List Nat := getAdjacentPits (lastPitOf g p)

/-- Stones sitting in the neighbours of the landing pit after sowing. -/
def nbrTotal (g : Game) (p : Nat) : Nat :=
  ((neighborsOf g p).map (fun q => (boardAfterSow g p).getD q 0)).sum

/-- The capture precondition: the last stone landed in an opponent pit
that now holds exactly one stone. -/
def captureTrigger (g : Game) (p : Nat) : Prop :=
  isOwnPit g.currentPlayer (lastPitOf g p) = false ∧
    (boardAfterSow g p).getD (lastPitOf g p) 0 = 1

/-- The board after the capture stage of `makeMove g p`. -/
def boardAfterCapture (g : Game) (p : Nat) : List Nat :=
  (checkCapture g.currentPlayer (boardAfterSow g p) (lastPitOf g p)).1

/-- The bonus-turn condition: the last stone landed in a pit of the
mover's own side and, after the capture stage, that pit holds a nonzero
even number of stones. -/
def bonusCond (g : Game) (p : Nat) : Prop :=
  isOwnPit g.currentPlayer (lastPitOf g p) = true ∧
    (boardAfterCapture g p).getD (lastPitOf g p) 0 % 2 = 0 ∧
    0 < (boardAfterCapture g p).getD (lastPitOf g p) 0

instance captureTriggerDecidable (g : Game) (p : Nat) : Decidable (captureTrigger g p) := by
  unfold captureTrigger
  infer_instance

instance bonusCondDecidable (g : Game) (p : Nat) : Decidable (bonusCond g p) := by
  unfold bonusCond
  infer_instance

/-- Running maximum of the child values, seeded with `best`: the score
computed by `fullMaxLoop`. -/
def foldMax (f : Game → EInt) (g : Game) : List Nat → EInt → EInt
  | [], best => best
  | m :: rest, best => foldMax f g rest (max best (f (childGame g m)))

/-- Running minimum of the child values, seeded with `best`. -/
def foldMin (f : Game → EInt) (g : Game) : List Nat → EInt → EInt
  | [], best => best
  | m :: rest, best => foldMin f g rest (min best (f (childGame g m)))

/-- `Approx v r a b`: the relation between the exact minimax value `v` of
a node and the value `r` returned by the alpha-beta search of that node
in window `(a, b)`: exact inside the window, a bound clamped to the
window edge outside it. -/
def Approx (v r a b : EInt) : Prop :=
  (a < v → v < b → r = v) ∧ (v ≤ a → v ≤ r ∧ r ≤ a) ∧ (b ≤ v → b ≤ r ∧ r ≤ v)

/-! ## Concrete states and move sequences used as inputs -/

/-- A game state with the given board and side to move, fresh otherwise. -/
def mkGame (b : List Nat) (cur : Player) : Game :=
  { board := b
    playerScore := 0
    aiScore := 0
    currentPlayer := cur
    gameOver := false
    winner := none
    lastMove := none
    capturedStones := 0
    moveHistory := [] }

/-- A move sequence (always the lowest valid pit) that plays a full game
from the initial state to game over. -/
def seqC1 : List Nat :=
  [0, 7, 1, 7, 2, 7, 3, 7, 0, 1, 2, 3, 8, 0, 1, 2, 7, 3, 8, 4, 7, 8, 9, 0,
   7, 8, 9, 1, 10, 0, 7, 8, 9, 10, 11, 7, 8, 9, 10, 11, 0, 12, 0, 1, 7, 2,
   7, 0, 1, 2, 8, 3, 7, 8, 0, 9, 0, 10, 0, 11, 0, 12, 0, 13, 7, 0, 1, 7, 2,
   9, 10, 3, 11, 4, 7, 8, 5, 7, 8, 0, 9, 2, 10, 3, 4, 11, 0, 12, 0, 7, 1,
   2, 8, 3, 9, 4, 10, 5, 7, 8, 9, 6, 7, 8, 0, 1, 2, 9, 3, 10, 0, 11, 0, 12,
   0, 13, 0, 7, 1, 2, 8, 3, 9, 4, 10, 5, 7, 6]

/-- The state reached by playing `seqC1` from the initial state. -/
def endC1 : Game := seqC1.foldl (fun g m => (makeMove g m).1) initGame

/-- Player about to play their single stone in pit 6, emptying side A. -/
def gEnd : Game := mkGame [0, 0, 0, 0, 0, 0, 1, 1, 0, 0, 0, 0, 0, 0] Player.player

/-- AI to move; pits 7 and 8 grant the AI a bonus turn. -/
def gBonus : Game := mkGame [2, 0, 0, 0, 0, 0, 0, 1, 1, 3, 0, 0, 0, 0] Player.ai

/-- Player to move with a capture available (pit 6 lands in empty pit 7
next to the 3 stones in pit 8); the AI side has no capturing move. -/
def gCap : Game := mkGame [0, 0, 0, 0, 0, 0, 1, 0, 3, 0, 0, 0, 0, 0] Player.player

/-! ## Helper lemmas -/

theorem otherPlayer_ne (pl : Player) : otherPlayer pl ≠ pl := by
  cases pl <;> simp [otherPlayer]

theorem getD_set_ne (b : List Nat) (i j x : Nat) (h : i ≠ j) :
    (b.set i x).getD j 0 = b.getD j 0 := by
  simp [List.getD_eq_getElem?_getD, List.getElem?_set_ne h]

theorem getD_set_self (b : List Nat) (i x : Nat) (h : i < b.length) :
    (b.set i x).getD i 0 = x := by
  simp [List.getD_eq_getElem?_getD, List.getElem?_set_self, h]

theorem lt_length_of_getD_ne (b : List Nat) (i : Nat) (h : b.getD i 0 ≠ 0) :
    i < b.length := by
  by_contra hc
  push_neg at hc
  rw [List.getD_eq_default _ _ hc] at h
  exact h rfl

theorem checkGameEnd_board (g : Game) : (checkGameEnd g).board = g.board := by
  simp only [checkGameEnd]
  split <;> rfl

theorem checkGameEnd_currentPlayer (g : Game) :
    (checkGameEnd g).currentPlayer = g.currentPlayer := by
  simp only [checkGameEnd]
  split <;> rfl

theorem checkGameEnd_eq_self (g : Game) (h : (checkGameEnd g).gameOver = false) :
    checkGameEnd g = g := by
  revert h
  simp only [checkGameEnd]
  split
  · intro h
    simp at h
  · intro _
    rfl

theorem makeMove_captured (g : Game) (p : Nat) (h : isValidMove g p = true) :
    (makeMove g p).2.captured =
      (checkCapture g.currentPlayer (boardAfterSow g p) (lastPitOf g p)).2.1 := by
  have hne : ¬ (isValidMove g p = false) := by simp [h]
  simp only [makeMove, if_neg hne]
  rfl

theorem makeMove_board (g : Game) (p : Nat) (h : isValidMove g p = true) :
    (makeMove g p).1.board = boardAfterCapture g p := by
  have hne : ¬ (isValidMove g p = false) := by simp [h]
  simp only [makeMove, if_neg hne]
  rw [checkGameEnd_board]
  rfl

theorem makeMove_bonusTurn (g : Game) (p : Nat) (h : isValidMove g p = true) :
    (makeMove g p).2.bonusTurn = decide (bonusCond g p) := by
  have hne : ¬ (isValidMove g p = false) := by simp [h]
  simp only [makeMove, if_neg hne]
  rfl

theorem makeMove_currentPlayer (g : Game) (p : Nat) (h : isValidMove g p = true) :
    (makeMove g p).1.currentPlayer =
      if bonusCond g p then g.currentPlayer else otherPlayer g.currentPlayer := by
  have hne : ¬ (isValidMove g p = false) := by simp [h]
  simp only [makeMove, if_neg hne]
  rw [checkGameEnd_currentPlayer]
  rfl

theorem makeMove_success (g : Game) (p : Nat) (h : isValidMove g p = true) :
    (makeMove g p).2.success = true := by
  have hne : ¬ (isValidMove g p = false) := by simp [h]
  simp only [makeMove, if_neg hne]

theorem makeMove_invalid (g : Game) (p : Nat) (h : isValidMove g p = false) :
    makeMove g p = (g, invalidResult) := by
  simp only [makeMove, if_pos h]

theorem reachable_foldl (l : List Nat) :
    ∀ g : Game, Reachable g →
      Reachable (l.foldl (fun g m => (makeMove g m).1) g) := by
  induction l with
  | nil => intro g hg; exact hg
  | cons m rest ih =>
    intro g hg
    exact ih _ (Reachable.step g m hg)

/-! ## Claim theorems: rules engine -/

/-- C6. A `makeMove` on any pit for which `isValidMove` is false returns
an unsuccessful result and leaves the game state unchanged. -/
theorem invalid_move_rejected_unchanged (g : Game) (p : Nat)
    (h : isValidMove g p = false) :
    (makeMove g p).1 = g ∧ (makeMove g p).2.success = false := by
  rw [makeMove_invalid g p h]
  exact ⟨rfl, rfl⟩

/-- C6 witness: pit 7 is not the player's pit in the initial state. -/
theorem invalid_move_rejected_unchanged_witness :
    isValidMove initGame 7 = false ∧
      (makeMove initGame 7).1 = initGame ∧ (makeMove initGame 7).2.success = false :=
  ⟨by decide, invalid_move_rejected_unchanged initGame 7 (by decide)⟩

/-- C3. `simulateMove` restores board, scores, turn, game-over flag and
winner, but the `makeMove` it runs pushes a history entry that is never
rolled back: after `simulateMove(0)` on the initial state the restored
object differs from the original in `moveHistory`, so the authoritative
state is not byte-for-byte identical. -/
theorem simulateMove_history_not_restored :
    ((simulateMove initGame 0).2.board = initGame.board ∧
      (simulateMove initGame 0).2.playerScore = initGame.playerScore ∧
      (simulateMove initGame 0).2.aiScore = initGame.aiScore ∧
      (simulateMove initGame 0).2.currentPlayer = initGame.currentPlayer ∧
      (simulateMove initGame 0).2.gameOver = initGame.gameOver ∧
      (simulateMove initGame 0).2.winner = initGame.winner) ∧
    (simulateMove initGame 0).2.moveHistory.length = 1 ∧
    initGame.moveHistory.length = 0 ∧
    (simulateMove initGame 0).2 ≠ initGame := by
  decide

/-- C2. Terminal transition on a concrete state: the player empties side
A by playing the single stone in pit 6; the game ends and side B's two
remaining stones are added to the AI score and decide the winner, but the
pits are not cleared — pit 7 still holds its 2 stones on the final board,
contradicting the claim that all pits are left at zero. -/
theorem game_end_pits_not_cleared :
    (makeMove gEnd 6).1.gameOver = true ∧
    (makeMove gEnd 6).1.playerScore = 0 ∧
    (makeMove gEnd 6).1.aiScore = 2 ∧
    (makeMove gEnd 6).1.winner = some Winner.ai ∧
    (makeMove gEnd 6).1.board = [0, 0, 0, 0, 0, 0, 0, 2, 0, 0, 0, 0, 0, 0] := by
  decide

set_option maxRecDepth 10000 in
/-- C1. Stone conservation fails at the end of a real game: after the
reachable move sequence `seqC1` the game is over, the two scores already
account for all 96 stones, yet 7 stones also remain on the board, so the
board total plus both scores is 103, not 96. -/
theorem conservation_violated_at_game_end :
    Reachable endC1 ∧ endC1.gameOver = true ∧
      endC1.playerScore + endC1.aiScore = 96 ∧
      endC1.board.sum = 7 ∧
      endC1.board.sum + endC1.playerScore + endC1.aiScore ≠ 96 := by
  refine ⟨reachable_foldl seqC1 initGame Reachable.init, ?_⟩
  have h : endC1.gameOver = true ∧ endC1.playerScore = 44 ∧
      endC1.aiScore = 52 ∧ endC1.board.sum = 7 := by decide
  refine ⟨h.1, ?_, h.2.2.2, ?_⟩
  · rw [h.2.1, h.2.2.1]
  · rw [h.2.1, h.2.2.1, h.2.2.2]
    omega

theorem checkCapture_pos_not_own (cur : Player) (b : List Nat) (l : Nat)
    (h : 0 < (checkCapture cur b l).2.1) : isOwnPit cur l = false := by
  revert h
  unfold checkCapture
  split
  · rename_i hcond
    intro _
    exact hcond.1
  · intro h
    exact absurd h (lt_irrefl 0)

/-- C8. For every legal move, the turn stays with the mover iff the last
sown stone landed in the mover's own pit and, after the capture stage,
that pit holds a nonzero even count; the reported `bonusTurn` flag agrees. -/
theorem bonus_turn_rule (g : Game) (p : Nat) (h : isValidMove g p = true) :
    ((makeMove g p).2.bonusTurn = true ↔ bonusCond g p) ∧
    ((makeMove g p).1.currentPlayer = g.currentPlayer ↔ bonusCond g p) := by
  constructor
  · rw [makeMove_bonusTurn g p h]
    exact decide_eq_true_iff
  · rw [makeMove_currentPlayer g p h]
    by_cases hb : bonusCond g p
    · simp [hb]
    · simp [hb, otherPlayer_ne]

/-- C8 witness: the AI playing pit 7 in `gBonus` lands its stone in its
own pit 8 making it hold 2 stones, so the AI keeps the turn. -/
theorem bonus_turn_rule_witness :
    isValidMove gBonus 7 = true ∧
      (((makeMove gBonus 7).2.bonusTurn = true ↔ bonusCond gBonus 7) ∧
        ((makeMove gBonus 7).1.currentPlayer = gBonus.currentPlayer ↔ bonusCond gBonus 7)) :=
  ⟨by decide, bonus_turn_rule gBonus 7 (by decide)⟩

/-- C10. A successful move never both captures stones and grants a bonus
turn: a capture requires the last pit to be an opponent pit while a bonus
turn requires it to be the mover's own pit. -/
theorem capture_and_bonus_exclusive (g : Game) (p : Nat)
    (h : (makeMove g p).2.success = true) :
    ¬(0 < (makeMove g p).2.captured ∧ (makeMove g p).2.bonusTurn = true) := by
  rintro ⟨hc, hb⟩
  by_cases hv : isValidMove g p = true
  · rw [makeMove_captured g p hv] at hc
    rw [makeMove_bonusTurn g p hv] at hb
    have hown := checkCapture_pos_not_own _ _ _ hc
    have hbc : bonusCond g p := of_decide_eq_true hb
    rw [bonusCond, hown] at hbc
    exact absurd hbc.1 (by simp)
  · have hvf : isValidMove g p = false := by
      cases hx : isValidMove g p
      · rfl
      · exact absurd hx hv
    rw [makeMove_invalid g p hvf] at h
    exact absurd h (by simp [invalidResult])

/-- C10 witness: the player's capturing move from pit 6 in `gCap`. -/
theorem capture_and_bonus_exclusive_witness :
    (makeMove gCap 6).2.success = true ∧
      ¬(0 < (makeMove gCap 6).2.captured ∧ (makeMove gCap 6).2.bonusTurn = true) :=
  ⟨by decide, capture_and_bonus_exclusive gCap 6 (by decide)⟩

theorem getNextPit_le : ∀ p : Nat, p ≤ 13 → getNextPit p ≤ 13 := by decide

theorem getAdjacentPits_nodup :
    ∀ q : Nat, q ≤ 13 → (getAdjacentPits q).Nodup ∧ q ∉ getAdjacentPits q := by decide

theorem sow_last_le (n : Nat) :
    ∀ (b : List Nat) (p : Nat), p ≤ 13 → (sow b p n).2.1 ≤ 13 := by
  induction n with
  | zero => intro b p h; exact h
  | succ n ih => intro b p h; exact ih _ _ (getNextPit_le p h)

theorem isValidMove_pit_le (g : Game) (p : Nat) (h : isValidMove g p = true) :
    p ≤ 13 := by
  unfold isValidMove at h
  split_ifs at h with h1 h2 h3
  · rcases not_and_or.mp h2 with hcp | hple
    · rcases not_and_or.mp h3 with hcp2 | hai
      · cases hcpv : g.currentPlayer
        · exact absurd hcpv hcp
        · exact absurd hcpv hcp2
      · push_neg at hai
        omega
    · push_neg at hple
      omega

theorem lastPitOf_le (g : Game) (p : Nat) (h : isValidMove g p = true) :
    lastPitOf g p ≤ 13 := by
  unfold lastPitOf sowOf
  exact sow_last_le _ _ _ (isValidMove_pit_le g p h)

theorem captureLoop_length (l : List Nat) :
    ∀ b : List Nat, (captureLoop b l).1.length = b.length := by
  induction l with
  | nil => intro b; rfl
  | cons a rest ih =>
    intro b
    simp only [captureLoop]
    split
    · show (captureLoop (b.set a 0) rest).1.length = b.length
      rw [ih]
      simp
    · exact ih b

theorem captureLoop_sum (l : List Nat) :
    ∀ b : List Nat, l.Nodup →
      (captureLoop b l).2.1 = (l.map (fun q => b.getD q 0)).sum := by
  induction l with
  | nil => intro b _; rfl
  | cons a rest ih =>
    intro b hn
    rw [List.nodup_cons] at hn
    simp only [captureLoop]
    split
    · show b.getD a 0 + (captureLoop (b.set a 0) rest).2.1 = _
      rw [ih _ hn.2]
      have hmap : rest.map (fun q => (b.set a 0).getD q 0) = rest.map (fun q => b.getD q 0) :=
        List.map_congr_left (fun q hq => getD_set_ne b a q 0 (fun he => hn.1 (he ▸ hq)))
      rw [hmap]
      simp only [List.map_cons, List.sum_cons]
    · rename_i hpos
      rw [ih _ hn.2]
      have h0 : b.getD a 0 = 0 := Nat.eq_zero_of_not_pos hpos
      simp only [List.map_cons, List.sum_cons]
      rw [h0]
      omega

theorem captureLoop_getD (l : List Nat) :
    ∀ (b : List Nat) (q : Nat), l.Nodup →
      (captureLoop b l).1.getD q 0 = if q ∈ l then 0 else b.getD q 0 := by
  induction l with
  | nil =>
    intro b q _
    rw [if_neg (List.not_mem_nil q)]
    rfl
  | cons a rest ih =>
    intro b q hn
    rw [List.nodup_cons] at hn
    simp only [captureLoop]
    split
    · rename_i hpos
      show (captureLoop (b.set a 0) rest).1.getD q 0 = _
      rw [ih _ q hn.2]
      by_cases hq : q ∈ rest
      · rw [if_pos hq, if_pos (List.mem_cons_of_mem a hq)]
      · rw [if_neg hq]
        by_cases hqa : q = a
        · subst hqa
          have hlt : q < b.length :=
            lt_length_of_getD_ne b q (Nat.pos_iff_ne_zero.mp hpos)
          rw [if_pos (List.mem_cons_self q rest)]
          exact getD_set_self b q 0 hlt
        · rw [if_neg (by rw [List.mem_cons]; push_neg; exact ⟨hqa, hq⟩)]
          exact getD_set_ne b a q 0 (fun he => hqa he.symm)
    · rename_i hpos
      rw [ih _ q hn.2]
      have h0 : b.getD a 0 = 0 := Nat.eq_zero_of_not_pos hpos
      by_cases hq : q ∈ rest
      · rw [if_pos hq, if_pos (List.mem_cons_of_mem a hq)]
      · rw [if_neg hq]
        by_cases hqa : q = a
        · subst hqa
          rw [if_pos (List.mem_cons_self q rest), h0]
        · rw [if_neg (by rw [List.mem_cons]; push_neg; exact ⟨hqa, hq⟩)]

theorem captureLoop_id (l : List Nat) :
    ∀ b : List Nat, (∀ q ∈ l, b.getD q 0 = 0) → captureLoop b l = (b, 0, []) := by
  induction l with
  | nil => intro b _; rfl
  | cons a rest ih =>
    intro b hz
    simp only [captureLoop]
    rw [if_neg (by rw [hz a (List.mem_cons_self a rest)]; exact lt_irrefl 0)]
    exact ih b (fun q hq => hz q (List.mem_cons_of_mem a hq))

theorem checkCapture_no_trigger (cur : Player) (b : List Nat) (l : Nat)
    (h : ¬(isOwnPit cur l = false ∧ b.getD l 0 = 1)) :
    checkCapture cur b l = (b, 0, []) := by
  unfold checkCapture
  rw [if_neg h]

theorem checkCapture_trigger_zero (cur : Player) (b : List Nat) (l : Nat)
    (ht : isOwnPit cur l = false ∧ b.getD l 0 = 1)
    (hz : ((getAdjacentPits l).map (fun q => b.getD q 0)).sum = 0) :
    checkCapture cur b l = (b, 0, []) := by
  have hall : ∀ q ∈ getAdjacentPits l, b.getD q 0 = 0 := by
    intro q hq
    exact List.sum_eq_zero_iff.mp hz _ (List.mem_map_of_mem _ hq)
  unfold checkCapture
  rw [if_pos ht, captureLoop_id _ _ hall]
  rw [if_neg (lt_irrefl 0)]

theorem checkCapture_trigger_pos (cur : Player) (b : List Nat) (l : Nat) (hl : l ≤ 13)
    (ht : isOwnPit cur l = false ∧ b.getD l 0 = 1)
    (hpos : 0 < ((getAdjacentPits l).map (fun q => b.getD q 0)).sum) :
    (checkCapture cur b l).2.1 = ((getAdjacentPits l).map (fun q => b.getD q 0)).sum + 1 ∧
    ∀ q, (checkCapture cur b l).1.getD q 0 =
      if q ∈ getAdjacentPits l ∨ q = l then 0 else b.getD q 0 := by
  have hadj := getAdjacentPits_nodup l hl
  have hsum := captureLoop_sum (getAdjacentPits l) b hadj.1
  have hgetD := fun q => captureLoop_getD (getAdjacentPits l) b q hadj.1
  have hlastD : (captureLoop b (getAdjacentPits l)).1.getD l 0 = b.getD l 0 := by
    rw [hgetD l, if_neg hadj.2]
  have hlt : l < (captureLoop b (getAdjacentPits l)).1.length := by
    rw [captureLoop_length]
    exact lt_length_of_getD_ne b l (by rw [ht.2]; exact one_ne_zero)
  unfold checkCapture
  rw [if_pos ht]
  rw [if_pos (by rw [hsum]; exact hpos)]
  constructor
  · rw [hsum, hlastD, ht.2]
  · intro q
    by_cases hql : q = l
    · subst hql
      rw [getD_set_self _ _ _ hlt]
      simp
    · rw [getD_set_ne _ _ _ _ (fun he => hql he.symm), hgetD q]
      by_cases hq : q ∈ getAdjacentPits l
      · simp [hq]
      · simp [hq, hql]

theorem makeMove_scores (g : Game) (p : Nat) (h : isValidMove g p = true)
    (hno : (makeMove g p).1.gameOver = false) :
    (makeMove g p).1.playerScore =
        (if g.currentPlayer = Player.player
          then g.playerScore + (makeMove g p).2.captured else g.playerScore) ∧
    (makeMove g p).1.aiScore =
        (if g.currentPlayer = Player.ai
          then g.aiScore + (makeMove g p).2.captured else g.aiScore) := by
  have hne : ¬ (isValidMove g p = false) := by simp [h]
  simp only [makeMove, if_neg hne] at hno ⊢
  rw [checkGameEnd_eq_self _ hno]
  exact ⟨rfl, rfl⟩

/-! ## Claim theorem: capture rule -/

/-- C7. For every legal move: stones are captured iff the last stone
landed in an opponent pit now holding exactly one stone and at least one
circular neighbour holds stones; in that case every stone-holding
neighbour and the landing pit itself are zeroed and the total captured is
the neighbours' stones plus the landing stone; if the trigger holds but
both neighbours are empty, or the trigger fails, nothing is captured and
the board is exactly the sown board; the captured stones go to the
mover's score. -/
theorem capture_rule (g : Game) (p : Nat) (h : isValidMove g p = true) :
    (0 < (makeMove g p).2.captured ↔ captureTrigger g p ∧ 0 < nbrTotal g p) ∧
    (captureTrigger g p → 0 < nbrTotal g p →
      (makeMove g p).2.captured = nbrTotal g p + 1 ∧
      (∀ q, (makeMove g p).1.board.getD q 0 =
        if q ∈ neighborsOf g p ∨ q = lastPitOf g p then 0
        else (boardAfterSow g p).getD q 0)) ∧
    (captureTrigger g p → nbrTotal g p = 0 →
      (makeMove g p).2.captured = 0 ∧ (makeMove g p).1.board = boardAfterSow g p) ∧
    (¬captureTrigger g p →
      (makeMove g p).2.captured = 0 ∧ (makeMove g p).1.board = boardAfterSow g p) ∧
    ((makeMove g p).1.gameOver = false →
      (g.currentPlayer = Player.player →
        (makeMove g p).1.playerScore = g.playerScore + (makeMove g p).2.captured) ∧
      (g.currentPlayer = Player.ai →
        (makeMove g p).1.aiScore = g.aiScore + (makeMove g p).2.captured)) := by
  have hcap := makeMove_captured g p h
  have hboard := makeMove_board g p h
  have hl := lastPitOf_le g p h
  refine ⟨?_, ?_, ?_, ?_, ?_⟩
  · constructor
    · intro hpos
      by_cases ht : captureTrigger g p
      · refine ⟨ht, ?_⟩
        by_cases hz : 0 < nbrTotal g p
        · exact hz
        · have h0 : nbrTotal g p = 0 := Nat.eq_zero_of_not_pos hz
          rw [hcap, checkCapture_trigger_zero _ _ _ ht h0] at hpos
          exact absurd hpos (lt_irrefl 0)
      · rw [hcap, checkCapture_no_trigger _ _ _ ht] at hpos
        exact absurd hpos (lt_irrefl 0)
    · rintro ⟨ht, hpos⟩
      rw [hcap, (checkCapture_trigger_pos _ _ _ hl ht hpos).1]
      exact Nat.succ_pos _
  · intro ht hpos
    have hspec := checkCapture_trigger_pos g.currentPlayer (boardAfterSow g p)
      (lastPitOf g p) hl ht hpos
    refine ⟨by rw [hcap, hspec.1]; rfl, ?_⟩
    intro q
    rw [hboard]
    exact hspec.2 q
  · intro ht hz
    rw [hcap, hboard]
    unfold boardAfterCapture
    rw [checkCapture_trigger_zero _ _ _ ht hz]
    exact ⟨rfl, rfl⟩
  · intro ht
    rw [hcap, hboard]
    unfold boardAfterCapture
    rw [checkCapture_no_trigger _ _ _ ht]
    exact ⟨rfl, rfl⟩
  · intro hno
    have hs := makeMove_scores g p h hno
    constructor
    · intro hcp
      rw [hs.1, if_pos hcp]
    · intro hcp
      rw [hs.2, if_pos hcp]

/-- C7 witness: the player's move from pit 6 in `gCap` lands in empty
pit 7 and captures the 3 stones of pit 8 plus the landing stone. -/
theorem capture_rule_witness :
    isValidMove gCap 6 = true ∧
      ((0 < (makeMove gCap 6).2.captured ↔ captureTrigger gCap 6 ∧ 0 < nbrTotal gCap 6) ∧
       (captureTrigger gCap 6 → 0 < nbrTotal gCap 6 →
         (makeMove gCap 6).2.captured = nbrTotal gCap 6 + 1 ∧
         (∀ q, (makeMove gCap 6).1.board.getD q 0 =
           if q ∈ neighborsOf gCap 6 ∨ q = lastPitOf gCap 6 then 0
           else (boardAfterSow gCap 6).getD q 0)) ∧
       (captureTrigger gCap 6 → nbrTotal gCap 6 = 0 →
         (makeMove gCap 6).2.captured = 0 ∧ (makeMove gCap 6).1.board = boardAfterSow gCap 6) ∧
       (¬captureTrigger gCap 6 →
         (makeMove gCap 6).2.captured = 0 ∧ (makeMove gCap 6).1.board = boardAfterSow gCap 6) ∧
       ((makeMove gCap 6).1.gameOver = false →
         (gCap.currentPlayer = Player.player →
           (makeMove gCap 6).1.playerScore = gCap.playerScore + (makeMove gCap 6).2.captured) ∧
         (gCap.currentPlayer = Player.ai →
           (makeMove gCap 6).1.aiScore = gCap.aiScore + (makeMove gCap 6).2.captured))) :=
  ⟨by decide, capture_rule gCap 6 (by decide)⟩

/-! ## Claim theorems: evaluator and search role -/

theorem evaluateCaptureOpportunities_eq (g : Game) :
    evaluateCaptureOpportunities g =
      (getValidMoves g).foldl
        (fun s m =>
          if 0 < (makeMove g m).2.captured
            then s + ((makeMove g m).2.captured : ℤ) * 15 else s)
        0 := rfl

theorem foldl_capture_sum (g : Game) (l : List Nat) :
    ∀ s : ℤ,
      l.foldl
        (fun s m =>
          if 0 < (makeMove g m).2.captured
            then s + ((makeMove g m).2.captured : ℤ) * 15 else s)
        s
      = s + (l.map (fun m => ((makeMove g m).2.captured : ℤ) * 15)).sum := by
  induction l with
  | nil => intro s; simp
  | cons m rest ih =>
    intro s
    simp only [List.foldl_cons, List.map_cons, List.sum_cons]
    by_cases hc : 0 < (makeMove g m).2.captured
    · rw [if_pos hc, ih]
      ring
    · rw [if_neg hc, ih]
      have h0 : (makeMove g m).2.captured = 0 := Nat.eq_zero_of_not_pos hc
      rw [h0]
      push_cast
      ring

/-- C9 (amended). For every non-finished state the static evaluation is
the score, stone-distribution, mobility and strategic terms plus a
capture-opportunity term of 15 × captured stones summed over the legal
moves of the side to move in the evaluated state — the current player's
moves, not necessarily the AI's, and always added with a positive sign. -/
theorem evaluator_capture_term (g : Game) (h : g.gameOver = false) :
    evaluatePosition g =
      ((g.aiScore : ℤ) - (g.playerScore : ℤ)) * 10
        + ((aiStones g : ℤ) - (playerStones g : ℤ)) * 2
        + (((movesFor g Player.ai).length : ℤ) - ((movesFor g Player.player).length : ℤ)) * 5
        + evaluateStrategicPositions g
        + ((getValidMoves g).map (fun m => ((makeMove g m).2.captured : ℤ) * 15)).sum := by
  unfold evaluatePosition
  rw [if_neg (by rw [h]; exact Bool.false_ne_true)]
  rw [evaluateCaptureOpportunities_eq, foldl_capture_sum g _ 0, zero_add]

/-- C9 witness: the decomposition evaluated at the initial state. -/
theorem evaluator_capture_term_witness :
    initGame.gameOver = false ∧
      evaluatePosition initGame =
        ((initGame.aiScore : ℤ) - (initGame.playerScore : ℤ)) * 10
          + ((aiStones initGame : ℤ) - (playerStones initGame : ℤ)) * 2
          + (((movesFor initGame Player.ai).length : ℤ)
              - ((movesFor initGame Player.player).length : ℤ)) * 5
          + evaluateStrategicPositions initGame
          + ((getValidMoves initGame).map
              (fun m => ((makeMove initGame m).2.captured : ℤ) * 15)).sum :=
  ⟨rfl, evaluator_capture_term initGame rfl⟩

/-- C9 counterexample: in `gCap` it is the player's turn; the code's
capture-opportunity term is the player's 60 (4 stones × 15), while the
claimed AI-side term would be 0, so the evaluation differs from the
claim's formula. -/
theorem evaluator_capture_term_not_ai_side :
    gCap.gameOver = false ∧ gCap.currentPlayer = Player.player ∧
    evaluateCaptureOpportunities gCap = 60 ∧
    evaluateCaptureOpportunitiesSpec gCap = 0 ∧
    evaluatePosition gCap ≠ evaluatePositionSpec gCap := by
  decide

/-- C4. The minimax recursion flips the maximizing role unconditionally:
in `gBonus` the AI's move from pit 7 grants a bonus turn (the child state
is still the AI's turn), yet the alpha-beta search values the position
differently from the spec's turn-aware search, which derives the role at
the next ply from the child's `turn` field. -/
theorem minimax_role_flips_despite_bonus :
    (makeMove gBonus 7).2.bonusTurn = true ∧
    (childGame gBonus 7).currentPlayer = Player.ai ∧
    gBonus.currentPlayer = Player.ai ∧
    minimax 2 gBonus true ⊥ topE ≠ minimaxTurn 2 gBonus := by
  decide

end Pallanguzhi

namespace Pallanguzhi

/-! ## Helper lemmas: alpha-beta pruning equivalence -/

theorem ite_lt_max (x y : EInt) : (if x < y then y else x) = max x y := by
  by_cases h : x < y
  · rw [if_pos h, max_eq_right h.le]
  · rw [if_neg h, max_eq_left (not_lt.mp h)]

theorem ite_lt_min (x y : EInt) : (if y < x then y else x) = min x y := by
  by_cases h : y < x
  · rw [if_pos h, min_eq_right h.le]
  · rw [if_neg h, min_eq_left (not_lt.mp h)]

theorem approx_self (v a b : EInt) : Approx v v a b :=
  ⟨fun _ _ => rfl, fun h => ⟨le_rfl, h⟩, fun h => ⟨h, le_rfl⟩⟩

theorem foldMax_max (f : Game → EInt) (g : Game) (ms : List Nat) :
    ∀ x y : EInt, foldMax f g ms (max x y) = max x (foldMax f g ms y) := by
  induction ms with
  | nil => intro x y; rfl
  | cons m rest ih =>
    intro x y
    simp only [foldMax]
    rw [max_assoc, ih]

theorem foldMax_eq (f : Game → EInt) (g : Game) (ms : List Nat) (best : EInt) :
    foldMax f g ms best = max best (foldMax f g ms ⊥) := by
  conv_lhs => rw [← max_eq_left (bot_le : (⊥ : EInt) ≤ best)]
  exact foldMax_max f g ms best ⊥

theorem le_foldMax (f : Game → EInt) (g : Game) (ms : List Nat) (best : EInt) :
    best ≤ foldMax f g ms best := by
  rw [foldMax_eq]
  exact le_max_left _ _

theorem foldMax_mono (f : Game → EInt) (g : Game) (ms : List Nat) (x y : EInt)
    (h : x ≤ y) : foldMax f g ms x ≤ foldMax f g ms y := by
  rw [foldMax_eq f g ms x, foldMax_eq f g ms y]
  exact max_le_max h le_rfl

theorem foldMin_min (f : Game → EInt) (g : Game) (ms : List Nat) :
    ∀ x y : EInt, foldMin f g ms (min x y) = min x (foldMin f g ms y) := by
  induction ms with
  | nil => intro x y; rfl
  | cons m rest ih =>
    intro x y
    simp only [foldMin]
    rw [min_assoc, ih]

theorem foldMin_eq (f : Game → EInt) (g : Game) (ms : List Nat) (best : EInt) :
    foldMin f g ms best = min best (foldMin f g ms ⊤) := by
  conv_lhs => rw [← min_eq_left (le_top : best ≤ (⊤ : EInt))]
  exact foldMin_min f g ms best ⊤

theorem foldMin_le (f : Game → EInt) (g : Game) (ms : List Nat) (best : EInt) :
    foldMin f g ms best ≤ best := by
  rw [foldMin_eq]
  exact min_le_left _ _

theorem foldMin_mono (f : Game → EInt) (g : Game) (ms : List Nat) (x y : EInt)
    (h : x ≤ y) : foldMin f g ms x ≤ foldMin f g ms y := by
  rw [foldMin_eq f g ms x, foldMin_eq f g ms y]
  exact min_le_min h le_rfl

theorem fullMaxLoop_fst (f : Game → EInt) (g : Game) (ms : List Nat) :
    ∀ (best : EInt) (bm : Option Nat),
      (fullMaxLoop f g ms best bm).1 = foldMax f g ms best := by
  induction ms with
  | nil => intro best bm; rfl
  | cons m rest ih =>
    intro best bm
    simp only [fullMaxLoop, foldMax]
    rw [ite_lt_max]
    exact ih _ _

theorem fullMinLoop_fst (f : Game → EInt) (g : Game) (ms : List Nat) :
    ∀ (best : EInt) (bm : Option Nat),
      (fullMinLoop f g ms best bm).1 = foldMin f g ms best := by
  induction ms with
  | nil => intro best bm; rfl
  | cons m rest ih =>
    intro best bm
    simp only [fullMinLoop, foldMin]
    rw [ite_lt_min]
    exact ih _ _

theorem fullMaxLoop_top (f : Game → EInt) (g : Game) (ms : List Nat) :
    ∀ bm : Option Nat, fullMaxLoop f g ms ⊤ bm = (⊤, bm) := by
  induction ms with
  | nil => intro bm; rfl
  | cons m rest ih =>
    intro bm
    simp only [fullMaxLoop]
    rw [if_neg (not_lt.mpr le_top), if_neg (not_lt.mpr le_top)]
    exact ih bm

theorem fullMinLoop_bot (f : Game → EInt) (g : Game) (ms : List Nat) :
    ∀ bm : Option Nat, fullMinLoop f g ms ⊥ bm = (⊥, bm) := by
  induction ms with
  | nil => intro bm; rfl
  | cons m rest ih =>
    intro bm
    simp only [fullMinLoop]
    rw [if_neg (not_lt.mpr bot_le), if_neg (not_lt.mpr bot_le)]
    exact ih bm

theorem abMaxLoop_approx (f : Game → EInt → EInt → EInt) (fv : Game → EInt)
    (hf : ∀ c (a b : EInt), a < b → Approx (fv c) (f c a b) a b) (g : Game) :
    ∀ (ms : List Nat) (best : EInt) (bm : Option Nat) (a b : EInt),
      best ≤ a → a < b →
      Approx (foldMax fv g ms best) ((abMaxLoop f g ms best bm a b).1) a b := by
  intro ms
  induction ms with
  | nil =>
    intro best bm a b hba hab
    exact approx_self best a b
  | cons m rest ih =>
    intro best bm a b hba hab
    simp only [abMaxLoop, foldMax]
    have hfc : Approx (fv (childGame g m)) (f (childGame g m) a b) a b :=
      hf (childGame g m) a b hab
    set w := fv (childGame g m) with hw
    set rc := f (childGame g m) a b with hrc
    rw [ite_lt_max]
    by_cases hcut : b ≤ max a rc
    · rw [if_pos hcut]
      have hbrc : b ≤ rc := (le_max_iff.mp hcut).resolve_left (not_le.mpr hab)
      have hbw : b ≤ w := by
        by_contra hwb
        push_neg at hwb
        rcases le_or_lt w a with hwa | haw
        · exact absurd (le_trans hbrc (hfc.2.1 hwa).2) (not_le.mpr hab)
        · rw [hfc.1 haw hwb] at hbrc
          exact absurd hbrc (not_le.mpr hwb)
      have hrcw : rc ≤ w := (hfc.2.2 hbw).2
      have hwv : w ≤ foldMax fv g rest (max best w) :=
        le_trans (le_max_right _ _) (le_foldMax fv g rest _)
      have hbv : b ≤ foldMax fv g rest (max best w) := le_trans hbw hwv
      refine ⟨?_, ?_, ?_⟩
      · intro _ hvb
        exact absurd hbv (not_le.mpr hvb)
      · intro hva
        exact absurd (lt_of_le_of_lt (le_trans hbv hva) hab) (lt_irrefl b)
      · intro _
        constructor
        · exact le_trans hbrc (le_max_right best rc)
        · exact max_le (le_trans hba (le_trans hab.le hbv)) (le_trans hrcw hwv)
    · rw [if_neg hcut]
      push_neg at hcut
      have hwb : w < b := by
        by_contra hbw2
        push_neg at hbw2
        exact absurd (le_trans (hfc.2.2 hbw2).1 (le_max_right a rc)) (not_le.mpr hcut)
      rcases le_or_lt w a with hwa | haw
      · -- child fails low: w ≤ rc ≤ a, window unchanged
        have hrcb := hfc.2.1 hwa
        have haeq : max a rc = a := max_eq_left hrcb.2
        have hmbw_a : max best w ≤ a := max_le hba hwa
        have hmbrc_a : max best rc ≤ a := max_le hba hrcb.2
        rw [haeq]
        have ihx := ih (max best rc) (if best < rc then some m else bm) a b hmbrc_a hab
        have hvv' : foldMax fv g rest (max best w) ≤ foldMax fv g rest (max best rc) :=
          foldMax_mono fv g rest _ _ (max_le_max le_rfl hrcb.1)
        have hvS : foldMax fv g rest (max best w)
            = max (max best w) (foldMax fv g rest ⊥) := foldMax_eq fv g rest _
        have hvS' : foldMax fv g rest (max best rc)
            = max (max best rc) (foldMax fv g rest ⊥) := foldMax_eq fv g rest _
        have hSle : foldMax fv g rest ⊥ ≤ foldMax fv g rest (max best w) := by
          rw [hvS]
          exact le_max_right _ _
        refine ⟨?_, ?_, ?_⟩
        · intro hav hvb
          have hveq : foldMax fv g rest (max best w) = foldMax fv g rest ⊥ := by
            rcases le_total (max best w) (foldMax fv g rest ⊥) with hle | hge
            · rw [hvS, max_eq_right hle]
            · exfalso
              rw [hvS, max_eq_left hge] at hav
              exact absurd hav (not_lt.mpr hmbw_a)
          have haS : a < foldMax fv g rest ⊥ := hveq ▸ hav
          have hveq' : foldMax fv g rest (max best rc) = foldMax fv g rest ⊥ := by
            rcases le_total (max best rc) (foldMax fv g rest ⊥) with hle | hge
            · rw [hvS', max_eq_right hle]
            · exact absurd (lt_of_lt_of_le haS (le_trans hge hmbrc_a)) (lt_irrefl a)
          have h1 := ihx.1 (by rw [hveq']; exact haS)
            (by rw [hveq']; rw [hveq] at hvb; exact hvb)
          rw [hveq, ← hveq']
          exact h1
        · intro hva
          have hv'a : foldMax fv g rest (max best rc) ≤ a := by
            rw [hvS']
            exact max_le hmbrc_a (le_trans hSle hva)
          have h2 := ihx.2.1 hv'a
          exact ⟨le_trans hvv' h2.1, h2.2⟩
        · intro hbv
          have hveq : foldMax fv g rest (max best w) = foldMax fv g rest ⊥ := by
            rcases le_total (max best w) (foldMax fv g rest ⊥) with hle | hge
            · rw [hvS, max_eq_right hle]
            · exfalso
              rw [hvS, max_eq_left hge] at hbv
              exact absurd (lt_of_le_of_lt (le_trans hbv hmbw_a) hab) (lt_irrefl b)
          have hbS : b ≤ foldMax fv g rest ⊥ := hveq ▸ hbv
          have hveq' : foldMax fv g rest (max best rc) = foldMax fv g rest ⊥ := by
            rcases le_total (max best rc) (foldMax fv g rest ⊥) with hle | hge
            · rw [hvS', max_eq_right hle]
            · exfalso
              exact absurd (lt_of_le_of_lt (le_trans (le_trans hbS hge) hmbrc_a) hab)
                (lt_irrefl b)
          have h3 := ihx.2.2 (by rw [hveq']; exact hbS)
          rw [hveq'] at h3
          rw [hveq]
          exact h3
      · -- child exact: a < w < b
        have hrceq : rc = w := hfc.1 haw hwb
        rw [hrceq, max_eq_right haw.le]
        have hmw : max best w ≤ w := max_le (le_trans hba haw.le) le_rfl
        have ihx := ih (max best w) (if best < w then some m else bm) w b hmw hwb
        have hwv : w ≤ foldMax fv g rest (max best w) :=
          le_trans (le_max_right _ _) (le_foldMax fv g rest _)
        refine ⟨?_, ?_, ?_⟩
        · intro hav hvb
          rcases eq_or_lt_of_le hwv with hvw | hwv'
          · have h2 := ihx.2.1 (le_of_eq hvw.symm)
            exact le_antisymm (hvw ▸ h2.2) h2.1
          · exact ihx.1 hwv' hvb
        · intro hva
          exact absurd (lt_of_le_of_lt (le_trans hwv hva) haw) (lt_irrefl w)
        · intro hbv
          exact ihx.2.2 hbv

theorem abMinLoop_approx (f : Game → EInt → EInt → EInt) (fv : Game → EInt)
    (hf : ∀ c (a b : EInt), a < b → Approx (fv c) (f c a b) a b) (g : Game) :
    ∀ (ms : List Nat) (best : EInt) (bm : Option Nat) (a b : EInt),
      b ≤ best → a < b →
      Approx (foldMin fv g ms best) ((abMinLoop f g ms best bm a b).1) a b := by
  intro ms
  induction ms with
  | nil =>
    intro best bm a b hbb hab
    exact approx_self best a b
  | cons m rest ih =>
    intro best bm a b hbb hab
    simp only [abMinLoop, foldMin]
    have hfc : Approx (fv (childGame g m)) (f (childGame g m) a b) a b :=
      hf (childGame g m) a b hab
    set w := fv (childGame g m) with hw
    set rc := f (childGame g m) a b with hrc
    rw [ite_lt_min]
    by_cases hcut : min b rc ≤ a
    · rw [if_pos hcut]
      have harc : rc ≤ a := (min_le_iff.mp hcut).resolve_left (not_le.mpr hab)
      have hwa : w ≤ a := by
        by_contra haw2
        push_neg at haw2
        rcases lt_or_le w b with hwb | hbw
        · rw [hfc.1 haw2 hwb] at harc
          exact absurd harc (not_le.mpr haw2)
        · exact absurd (lt_of_le_of_lt (le_trans (hfc.2.2 hbw).1 harc) hab) (lt_irrefl b)
      have hwrc : w ≤ rc := (hfc.2.1 hwa).1
      have hvw : foldMin fv g rest (min best w) ≤ w :=
        le_trans (foldMin_le fv g rest _) (min_le_right _ _)
      have hva : foldMin fv g rest (min best w) ≤ a := le_trans hvw hwa
      refine ⟨?_, ?_, ?_⟩
      · intro hav _
        exact absurd hva (not_le.mpr hav)
      · intro _
        constructor
        · exact le_min (le_trans (foldMin_le fv g rest _) (min_le_left _ _))
            (le_trans hvw hwrc)
        · exact le_trans (min_le_right best rc) harc
      · intro hbv
        exact absurd (lt_of_le_of_lt (le_trans hbv hva) hab) (lt_irrefl b)
    · rw [if_neg hcut]
      push_neg at hcut
      have haw : a < w := by
        by_contra hwa2
        push_neg at hwa2
        exact absurd (le_trans (min_le_right b rc) (hfc.2.1 hwa2).2) (not_le.mpr hcut)
      rcases le_or_lt b w with hbw | hwb
      · -- child fails high: b ≤ rc, rc ≤ w, window unchanged
        have hrcb := hfc.2.2 hbw
        have hbeq : min b rc = b := min_eq_left hrcb.1
        have hmbw_b : b ≤ min best w := le_min hbb hbw
        have hmbrc_b : b ≤ min best rc := le_min hbb hrcb.1
        rw [hbeq]
        have ihx := ih (min best rc) (if rc < best then some m else bm) a b hmbrc_b hab
        have hvv' : foldMin fv g rest (min best rc) ≤ foldMin fv g rest (min best w) :=
          foldMin_mono fv g rest _ _ (min_le_min le_rfl hrcb.2)
        have hvS : foldMin fv g rest (min best w)
            = min (min best w) (foldMin fv g rest ⊤) := foldMin_eq fv g rest _
        have hvS' : foldMin fv g rest (min best rc)
            = min (min best rc) (foldMin fv g rest ⊤) := foldMin_eq fv g rest _
        have hSge : foldMin fv g rest (min best w) ≤ foldMin fv g rest ⊤ := by
          rw [hvS]
          exact min_le_right _ _
        refine ⟨?_, ?_, ?_⟩
        · intro hav hvb
          have hveq : foldMin fv g rest (min best w) = foldMin fv g rest ⊤ := by
            rcases le_total (foldMin fv g rest ⊤) (min best w) with hle | hge
            · rw [hvS, min_eq_right hle]
            · exfalso
              rw [hvS, min_eq_left hge] at hvb
              exact absurd hmbw_b (not_le.mpr hvb)
          have hSb : foldMin fv g rest ⊤ < b := hveq ▸ hvb
          have hveq' : foldMin fv g rest (min best rc) = foldMin fv g rest ⊤ := by
            rcases le_total (foldMin fv g rest ⊤) (min best rc) with hle | hge
            · rw [hvS', min_eq_right hle]
            · exact absurd (lt_of_le_of_lt (le_trans hmbrc_b hge) hSb) (lt_irrefl b)
          have h1 := ihx.1 (by rw [hveq']; rw [hveq] at hav; exact hav)
            (by rw [hveq']; exact hSb)
          rw [hveq, ← hveq']
          exact h1
        · intro hva
          have hveq : foldMin fv g rest (min best w) = foldMin fv g rest ⊤ := by
            rcases le_total (foldMin fv g rest ⊤) (min best w) with hle | hge
            · rw [hvS, min_eq_right hle]
            · exfalso
              rw [hvS, min_eq_left hge] at hva
              exact absurd (lt_of_le_of_lt hmbw_b (lt_of_le_of_lt hva hab)) (lt_irrefl b)
          have hSa : foldMin fv g rest ⊤ ≤ a := hveq ▸ hva
          have hveq' : foldMin fv g rest (min best rc) = foldMin fv g rest ⊤ := by
            rcases le_total (foldMin fv g rest ⊤) (min best rc) with hle | hge
            · rw [hvS', min_eq_right hle]
            · exfalso
              exact absurd (lt_of_le_of_lt (le_trans hmbrc_b (le_trans hge hSa)) hab)
                (lt_irrefl b)
          have h2 := ihx.2.1 (by rw [hveq']; exact hSa)
          rw [hveq'] at h2
          rw [hveq]
          exact h2
        · intro hbv
          have hbv' : b ≤ foldMin fv g rest (min best rc) := by
            rw [hvS']
            exact le_min hmbrc_b (le_trans hbv hSge)
          have h3 := ihx.2.2 hbv'
          exact ⟨h3.1, le_trans h3.2 hvv'⟩
      · -- child exact: a < w < b
        have hrceq : rc = w := hfc.1 haw hwb
        rw [hrceq, min_eq_right hwb.le]
        have hmw : w ≤ min best w := le_min (le_trans hwb.le hbb) le_rfl
        have ihx := ih (min best w) (if w < best then some m else bm) a w hmw haw
        have hvw : foldMin fv g rest (min best w) ≤ w :=
          le_trans (foldMin_le fv g rest _) (min_le_right _ _)
        refine ⟨?_, ?_, ?_⟩
        · intro hav hvb
          rcases eq_or_lt_of_le hvw with hvw' | hvw'
          · have h2 := ihx.2.2 (le_of_eq hvw'.symm)
            exact le_antisymm h2.2 (hvw'.symm ▸ h2.1)
          · exact ihx.1 hav hvw'
        · intro hva
          exact ihx.2.1 hva
        · intro hbv
          exact absurd (lt_of_le_of_lt (le_trans hbv hvw) hwb) (lt_irrefl b)


theorem minimax_approx :
    ∀ (d : Nat) (g : Game) (isMax : Bool) (a b : EInt), a < b →
      Approx ((minimaxFull d g isMax).1) ((minimax d g isMax a b).1) a b := by
  intro d
  induction d with
  | zero =>
    intro g isMax a b _
    exact approx_self _ a b
  | succ d ih =>
    intro g isMax a b hab
    simp only [minimax, minimaxFull]
    by_cases hgo : g.gameOver = true
    · rw [if_pos hgo, if_pos hgo]
      exact approx_self _ a b
    · rw [if_neg hgo, if_neg hgo]
      cases isMax with
      | true =>
        rw [if_pos rfl, if_pos rfl]
        rw [fullMaxLoop_fst]
        exact abMaxLoop_approx _ _ (fun c a b hab => ih c false a b hab) g
          (getValidMoves g) ⊥ none a b bot_le hab
      | false =>
        rw [if_neg (by simp), if_neg (by simp)]
        rw [fullMinLoop_fst]
        exact abMinLoop_approx _ _ (fun c a b hab => ih c true a b hab) g
          (getValidMoves g) topE none a b le_top hab

theorem abMaxLoop_root (f : Game → EInt → EInt → EInt) (fv : Game → EInt)
    (hf : ∀ c (a b : EInt), a < b → Approx (fv c) (f c a b) a b) (g : Game) :
    ∀ (ms : List Nat) (best : EInt) (bm : Option Nat), best < ⊤ →
      abMaxLoop f g ms best bm best ⊤ = fullMaxLoop fv g ms best bm := by
  intro ms
  induction ms with
  | nil => intro best bm _; rfl
  | cons m rest ih =>
    intro best bm hlt
    simp only [abMaxLoop, fullMaxLoop]
    have hfc := hf (childGame g m) best ⊤ hlt
    set w := fv (childGame g m) with hw
    set rc := f (childGame g m) best ⊤ with hrc
    rcases le_or_lt w best with hwbest | hbestw
    · have h2 := hfc.2.1 hwbest
      simp only [max_eq_left h2.2, if_neg (not_le.mpr hlt),
        if_neg (not_lt.mpr h2.2), if_neg (not_lt.mpr hwbest)]
      exact ih best bm hlt
    · rcases lt_or_le w ⊤ with hwt | htw
      · have hrceq : rc = w := hfc.1 hbestw hwt
        simp only [hrceq, max_eq_right hbestw.le, if_neg (not_le.mpr hwt),
          if_pos hbestw]
        exact ih w (some m) hwt
      · have h3 := hfc.2.2 htw
        have hrceq : rc = ⊤ := le_antisymm le_top h3.1
        have hweq : w = ⊤ := le_antisymm le_top htw
        simp only [hrceq, hweq, max_eq_right (le_top : best ≤ (⊤ : EInt)),
          if_pos (le_refl (⊤ : EInt)), if_pos hlt]
        rw [fullMaxLoop_top]

theorem abMinLoop_root (f : Game → EInt → EInt → EInt) (fv : Game → EInt)
    (hf : ∀ c (a b : EInt), a < b → Approx (fv c) (f c a b) a b) (g : Game) :
    ∀ (ms : List Nat) (best : EInt) (bm : Option Nat), ⊥ < best →
      abMinLoop f g ms best bm ⊥ best = fullMinLoop fv g ms best bm := by
  intro ms
  induction ms with
  | nil => intro best bm _; rfl
  | cons m rest ih =>
    intro best bm hlt
    simp only [abMinLoop, fullMinLoop]
    have hfc := hf (childGame g m) ⊥ best hlt
    set w := fv (childGame g m) with hw
    set rc := f (childGame g m) ⊥ best with hrc
    rcases le_or_lt best w with hbestw | hwbest
    · have h3 := hfc.2.2 hbestw
      simp only [min_eq_left h3.1, if_neg (not_le.mpr hlt),
        if_neg (not_lt.mpr h3.1), if_neg (not_lt.mpr hbestw)]
      exact ih best bm hlt
    · rcases lt_or_le ⊥ w with hwbot | hwbot
      · have hrceq : rc = w := hfc.1 hwbot hwbest
        simp only [hrceq, min_eq_right hwbest.le, if_neg (not_le.mpr hwbot),
          if_pos hwbest]
        exact ih w (some m) hwbot
      · have h2 := hfc.2.1 hwbot
        have hrceq : rc = ⊥ := le_antisymm h2.2 bot_le
        have hweq : w = ⊥ := le_antisymm hwbot bot_le
        simp only [hrceq, hweq, min_eq_right (bot_le : (⊥ : EInt) ≤ best),
          if_pos (le_refl (⊥ : EInt)), if_pos hlt]
        rw [fullMinLoop_bot]

/-! ## Claim theorem: pruning equivalence -/

/-- C5. Pruning equivalence: for every game state, search depth and root
role, the alpha-beta `minimax` called with the full window
`(-Infinity, Infinity)` — as `chooseBestMove` calls it — returns exactly
the score and the move of the exhaustive `minimaxFull`, which shares the
first-best-move-in-ascending-pit-order tie-break; pruning changes neither
the value nor the chosen move. -/
theorem alphabeta_pruning_equiv (d : Nat) (g : Game) (isMax : Bool) :
    minimax d g isMax ⊥ topE = minimaxFull d g isMax := by
  cases d with
  | zero => rfl
  | succ d =>
    simp only [minimax, minimaxFull]
    by_cases hgo : g.gameOver = true
    · rw [if_pos hgo, if_pos hgo]
    · rw [if_neg hgo, if_neg hgo]
      cases isMax with
      | true =>
        rw [if_pos rfl, if_pos rfl]
        exact abMaxLoop_root _ _ (fun c a b hab => minimax_approx d c false a b hab) g
          (getValidMoves g) ⊥ none bot_lt_top
      | false =>
        rw [if_neg (by simp), if_neg (by simp)]
        exact abMinLoop_root _ _ (fun c a b hab => minimax_approx d c true a b hab) g
          (getValidMoves g) topE none bot_lt_top

end Pallanguzhi
